import Mathlib

/-!
Verification of the Vircadia UDT transport core (libraries/networking/src/udt).

The repository snapshot under verification contains the header files
(`Packet.h`, `BasePacket.h`, `ControlPacket.h`, `PacketList.h`, `PacketQueue.h`,
`SendQueue.h`, `Connection.h`, `Socket.h`); the corresponding `.cpp` bodies are
not part of the snapshot.  Every operation below is therefore a shallow
embedding modelled from the specification's operational description (and from
the doc comments in the headers, which carry the declared semantics), keeping
the source's names and data layout wherever they are declared in the headers.
-/

namespace VircadiaUDT

/-! ## Sequence-number arithmetic

Modelled from the spec: `SequenceNumber.h` is not in the snapshot.  Sequence
numbers are 27-bit unsigned values wrapping modulo 2^27 (`Packet.h` wire
diagram); ordering is forward-direction arithmetic, `a < b` iff
`(b - a) mod 2^27` lies in the open interval `(0, 2^26)`.
-/

/-- 2^27, the sequence-number modulus. -/
def seqMod : Nat := 134217728

/-- 2^26, half the sequence-number range. -/
def seqHalf : Nat := 67108864

/-- Modelled from the spec: the forward distance from `a` to `b` on the
27-bit sequence-number circle, i.e. `(b - a) mod 2^27` computed in `Nat`. -/
def fwdDist (a b : Nat) : Nat := (b + seqMod - a % seqMod) % seqMod

/-- Modelled from the spec: forward-direction comparison of sequence numbers,
`a < b` iff the forward distance from `a` to `b` is in `(0, 2^26)`. -/
def seqLt (a b : Nat) : Prop := 0 < fwdDist a b ∧ fwdDist a b < seqHalf

instance (a b : Nat) : Decidable (seqLt a b) := by
  unfold seqLt
  exact instDecidableAnd

/-- One of the two cyclic orientations of a triple of sequence numbers:
some rotation of `(a, b, c)` is forward-increasing in two consecutive steps. -/
def seqCyclic (a b c : Nat) : Prop :=
  (seqLt a b ∧ seqLt b c) ∨ (seqLt b c ∧ seqLt c a) ∨ (seqLt c a ∧ seqLt a b)

instance (a b c : Nat) : Decidable (seqCyclic a b c) := by
  unfold seqCyclic
  exact instDecidableOr

theorem fwdDist_eq_int_emod (a b : Nat) (ha : a < seqMod) :
    (fwdDist a b : Int) = ((b : Int) - (a : Int)) % (seqMod : Int) := by
  unfold fwdDist seqMod at *
  omega

theorem fwdDist_lt (a b : Nat) : fwdDist a b < seqMod := by
  unfold fwdDist seqMod
  omega

theorem fwdDist_cases (a b : Nat) (ha : a < seqMod) (hb : b < seqMod) :
    (a ≤ b ∧ fwdDist a b = b - a) ∨ (b < a ∧ fwdDist a b = b + seqMod - a) := by
  unfold fwdDist seqMod at *
  omega

theorem fwdDist_pos_of_ne (a b : Nat) (ha : a < seqMod) (hb : b < seqMod) (h : a ≠ b) :
    0 < fwdDist a b := by
  have h1 := fwdDist_cases a b ha hb
  omega

theorem fwdDist_add_rev (a b : Nat) (ha : a < seqMod) (hb : b < seqMod) (h : a ≠ b) :
    fwdDist a b + fwdDist b a = seqMod := by
  have h1 := fwdDist_cases a b ha hb
  have h2 := fwdDist_cases b a hb ha
  omega

theorem fwdDist_cycle (a b c : Nat) (ha : a < seqMod) (hb : b < seqMod) (hc : c < seqMod)
    (_hab : a ≠ b) (_hbc : b ≠ c) (hac : a ≠ c) :
    fwdDist a b + fwdDist b c + fwdDist c a = seqMod ∨
    fwdDist a b + fwdDist b c + fwdDist c a = 2 * seqMod := by
  have h1 := fwdDist_cases a b ha hb
  have h3 := fwdDist_cases b c hb hc
  have h6 := fwdDist_cases c a hc ha
  omega

/-- C3: sequence numbers wrap modulo 2^27; `seqLt a b` holds iff the signed
difference `b - a` reduced modulo 2^27 lies in the open interval `(0, 2^26)`,
and on any three pairwise distinct sequence numbers exactly one of the two
cyclic orientations induced by this relation holds. -/
theorem sequence_forward_arithmetic (a b c : Nat)
    (ha : a < seqMod) (hb : b < seqMod) (hc : c < seqMod)
    (hab : a ≠ b) (hbc : b ≠ c) (hac : a ≠ c) :
    (∀ x y : Nat, x < seqMod → y < seqMod →
      (seqLt x y ↔ (0 < ((y : Int) - (x : Int)) % (seqMod : Int) ∧
                    ((y : Int) - (x : Int)) % (seqMod : Int) < (seqHalf : Int)))) ∧
    ((seqCyclic a b c ∨ seqCyclic a c b) ∧ ¬ (seqCyclic a b c ∧ seqCyclic a c b)) := by
  constructor
  · intro x y hx hy
    unfold seqLt
    rw [show ((y : Int) - (x : Int)) % (seqMod : Int) = ((fwdDist x y : Nat) : Int) from
      (fwdDist_eq_int_emod x y hx).symm]
    constructor
    · intro h
      exact ⟨by exact_mod_cast h.1, by unfold seqHalf at *; exact_mod_cast h.2⟩
    · intro h
      exact ⟨by exact_mod_cast h.1, by unfold seqHalf at *; exact_mod_cast h.2⟩
  · have e1 : fwdDist b a = seqMod - fwdDist a b := by
      have := fwdDist_add_rev a b ha hb hab
      omega
    have e2 : fwdDist c b = seqMod - fwdDist b c := by
      have := fwdDist_add_rev b c hb hc hbc
      omega
    have e3 : fwdDist a c = seqMod - fwdDist c a := by
      have := fwdDist_add_rev c a hc ha (fun h => hac h.symm)
      omega
    have hcyc := fwdDist_cycle a b c ha hb hc hab hbc hac
    have p1 := fwdDist_pos_of_ne a b ha hb hab
    have p3 := fwdDist_pos_of_ne b c hb hc hbc
    have p6 := fwdDist_pos_of_ne c a hc ha (fun h => hac h.symm)
    have l1 := fwdDist_lt a b
    have l3 := fwdDist_lt b c
    have l6 := fwdDist_lt c a
    have hm : seqMod = 134217728 := rfl
    have hh : seqHalf = 67108864 := rfl
    unfold seqCyclic seqLt
    rw [e1, e2, e3]
    omega

/-- Witness for `sequence_forward_arithmetic` at a concrete wrap-around triple. -/
theorem sequence_forward_arithmetic_witness :
    seqCyclic 134217727 0 5 ∧ ¬ seqCyclic 134217727 5 0 := by
  have h := sequence_forward_arithmetic 134217727 0 5
    (by decide) (by decide) (by decide) (by decide) (by decide) (by decide)
  rcases h.2.1 with h1 | h1
  · exact ⟨h1, fun h2 => h.2.2 ⟨h1, h2⟩⟩
  · exact absurd h1 (by decide)

/-! ## Packets

Embedded from `Packet.h`: a data packet carries the reliable bit, the message
bit, an obfuscation level, a 27-bit sequence number, and, when the message bit
is set, a 2-bit position, a 30-bit message number and a 32-bit message part
number.  The header fields are modelled as structure fields (the `Packet`
class caches them in members exactly this way); the payload is abstracted to a
`Nat` identifier. -/

/-- 2^30, the message-number modulus (`Packet.h`: 30-bit `MessageNumber`). -/
def msgMod : Nat := 1073741824

/-- `Packet.h` `PacketPosition`: position of a packet within a message. -/
inductive PacketPosition where
  | ONLY
  | FIRST
  | MIDDLE
  | LAST
deriving DecidableEq, Repr

/-- The 2-bit wire encoding of `PacketPosition` (`Packet.h`: ONLY = 00,
FIRST = 10, MIDDLE = 11, LAST = 01). -/
def PacketPosition.bits : PacketPosition → Nat
  | .ONLY => 0
  | .FIRST => 2
  | .MIDDLE => 3
  | .LAST => 1

/-- A data packet (`Packet.h` member fields). The payload is abstracted to a
`Nat` identifier. -/
structure Pkt where
  isReliable : Bool := false
  isPartOfMessage : Bool := false
  messageNumber : Nat := 0
  packetPosition : PacketPosition := PacketPosition.ONLY
  messagePartNumber : Nat := 0
  sequenceNumber : Nat := 0
  payload : Nat := 0
deriving DecidableEq, Repr

/-- Modelled from the spec: `Packet::writeMessageNumber` sets the message
number (30-bit field), position and part number of the packet and marks it as
part of a message. -/
def Pkt.writeMessageNumber (p : Pkt) (m : Nat) (pos : PacketPosition) (part : Nat) : Pkt :=
  { p with
    isPartOfMessage := true
    messageNumber := m % msgMod
    packetPosition := pos
    messagePartNumber := part }

/-- A packet list (`PacketList.h`): a list of packets with the ordered and
reliable flags. -/
structure PktList where
  packets : List Pkt
  isOrdered : Bool := false
  isReliable : Bool := false

/-! ## Packet queue

Embedded from `PacketQueue.h`.  The queue holds a list of channels (the head
is the main channel) plus a cursor and the current message number.  Bodies of
`queuePacket`, `queuePacketList`, `takePacket` and `isEmpty` are not in the
snapshot; they are modelled from the spec (§4.2) and the doc comments of
`PacketQueue.h`. -/

/-- `PacketQueue.h` state: message-number counter, channel list (head = main
channel), and the round-robin channel cursor (`_currentChannel`, modelled as
an index). -/
structure PacketQueue where
  currentMessageNumber : Nat := 0
  channels : List (List Pkt) := [[]]
  currentChannel : Nat := 0
deriving DecidableEq, Repr

/-- Modelled from the spec: the position a packet at index `i` of an ordered
list of length `len` is stamped with (ONLY for a singleton, otherwise FIRST /
MIDDLE / LAST). -/
def positionFor (len i : Nat) : PacketPosition :=
  if len = 1 then PacketPosition.ONLY
  else if i = 0 then PacketPosition.FIRST
  else if i = len - 1 then PacketPosition.LAST
  else PacketPosition.MIDDLE

/-- Modelled from the spec: `PacketList::preparePackets(messageNumber)` stamps
every packet of an ordered list with the single message number `m`, sequential
part numbers starting at 0, and FIRST/MIDDLE/LAST/ONLY positions. -/
def preparePackets (m : Nat) (ps : List Pkt) : List Pkt :=
  ps.mapIdx (fun i p => p.writeMessageNumber m (positionFor ps.length i) i)

/-- Modelled from the spec: `PacketQueue::queuePacket` appends a packet to the
main channel (channel 0). -/
def PacketQueue.queuePacket (q : PacketQueue) (p : Pkt) : PacketQueue :=
  { q with
    channels := match q.channels with
      | [] => [[p]]
      | main :: rest => (main ++ [p]) :: rest }

/-- Modelled from the spec: `PacketQueue::queuePacketList` appends a new
channel at the end of the channel list; if the list is ordered, its packets
are first stamped with the next message number tracked by the queue. -/
def PacketQueue.queuePacketList (q : PacketQueue) (l : PktList) : PacketQueue :=
  if l.isOrdered then
    { q with
      currentMessageNumber := (q.currentMessageNumber + 1) % msgMod
      channels := q.channels ++ [preparePackets ((q.currentMessageNumber + 1) % msgMod) l.packets] }
  else
    { q with channels := q.channels ++ [l.packets] }

/-- Modelled from the spec: `PacketQueue::isEmpty` returns true iff only the
main channel is present and it is empty (`PacketQueue.h` doc comment). -/
def PacketQueue.isEmpty (q : PacketQueue) : Bool :=
  match q.channels with
  | [ch] => ch.isEmpty
  | _ => false

/-- C10: `PacketQueue::isEmpty` is true iff the channel list holds exactly the
main channel and that channel has no packets; consequently, after
`queuePacketList` appends a channel the queue reports non-empty, even when the
main channel is empty. -/
theorem packetQueue_isEmpty_spec (q : PacketQueue) (l : PktList)
    (hmain : q.channels ≠ []) :
    (q.isEmpty = true ↔ q.channels = [[]]) ∧
    (q.queuePacketList l).isEmpty = false := by
  constructor
  · unfold PacketQueue.isEmpty
    match h : q.channels with
    | [] => simp
    | [ch] =>
        simp only [List.isEmpty_iff]
        constructor
        · intro hch
          rw [hch]
        · intro hch
          exact (List.cons.injEq _ _ _ _ ▸ hch).1
    | ch1 :: ch2 :: rest => simp
  · unfold PacketQueue.queuePacketList PacketQueue.isEmpty
    match h : q.channels with
    | [] => exact absurd h hmain
    | ch1 :: rest =>
        cases hl : l.isOrdered <;> simp

/-- Witness for `packetQueue_isEmpty_spec`: the default queue (one empty main
channel) is empty, and appending a packet list makes it non-empty. -/
theorem packetQueue_isEmpty_spec_witness :
    (PacketQueue.isEmpty {} = true ↔ PacketQueue.channels {} = [[]]) ∧
    (PacketQueue.queuePacketList {} { packets := [] }).isEmpty = false :=
  packetQueue_isEmpty_spec {} { packets := [] } (by decide)

/-- The next message number the queue will assign
(`PacketQueue::getNextMessageNumber`, modelled from the spec: the 30-bit
counter advances by one, wrapping modulo 2^30). -/
def nextMessageNumber (q : PacketQueue) : Nat := (q.currentMessageNumber + 1) % msgMod

theorem length_preparePackets (m : Nat) (ps : List Pkt) :
    (preparePackets m ps).length = ps.length := by
  simp [preparePackets]

theorem preparePackets_get (m : Nat) (ps : List Pkt) (i : Nat)
    (hi : i < (preparePackets m ps).length) (hj : i < ps.length) :
    (preparePackets m ps).get ⟨i, hi⟩ =
      (ps.get ⟨i, hj⟩).writeMessageNumber m (positionFor ps.length i) i := by
  unfold preparePackets
  exact List.get_mapIdx ps _ i hj

/-- C4: appending an ordered packet list stamps every packet with the single
next message number, sequential part numbers starting at 0, and positions
ONLY (singleton) or FIRST at index 0, LAST exactly at the final index, and
MIDDLE strictly inside. -/
theorem queuePacketList_ordered_stamping (q : PacketQueue) (l : PktList)
    (hord : l.isOrdered = true) :
    (q.queuePacketList l).channels
        = q.channels ++ [preparePackets (nextMessageNumber q) l.packets] ∧
    (q.queuePacketList l).currentMessageNumber = nextMessageNumber q ∧
    (preparePackets (nextMessageNumber q) l.packets).length = l.packets.length ∧
    (∀ i (hi : i < (preparePackets (nextMessageNumber q) l.packets).length),
      ((preparePackets (nextMessageNumber q) l.packets).get ⟨i, hi⟩).messageNumber
        = nextMessageNumber q) ∧
    (∀ i (hi : i < (preparePackets (nextMessageNumber q) l.packets).length),
      ((preparePackets (nextMessageNumber q) l.packets).get ⟨i, hi⟩).messagePartNumber = i) ∧
    (∀ i (hi : i < (preparePackets (nextMessageNumber q) l.packets).length),
      l.packets.length = 1 →
      ((preparePackets (nextMessageNumber q) l.packets).get ⟨i, hi⟩).packetPosition
        = PacketPosition.ONLY) ∧
    (∀ i (hi : i < (preparePackets (nextMessageNumber q) l.packets).length),
      2 ≤ l.packets.length →
      (((preparePackets (nextMessageNumber q) l.packets).get ⟨i, hi⟩).packetPosition
          = PacketPosition.LAST ↔ i = l.packets.length - 1)) ∧
    (∀ i (hi : i < (preparePackets (nextMessageNumber q) l.packets).length),
      2 ≤ l.packets.length →
      (((preparePackets (nextMessageNumber q) l.packets).get ⟨i, hi⟩).packetPosition
          = PacketPosition.FIRST ↔ i = 0)) ∧
    (∀ i (hi : i < (preparePackets (nextMessageNumber q) l.packets).length),
      2 ≤ l.packets.length → 0 < i → i < l.packets.length - 1 →
      ((preparePackets (nextMessageNumber q) l.packets).get ⟨i, hi⟩).packetPosition
        = PacketPosition.MIDDLE) := by
  have hlen : (preparePackets (nextMessageNumber q) l.packets).length = l.packets.length :=
    length_preparePackets _ _
  refine ⟨?_, ?_, hlen, ?_, ?_, ?_, ?_, ?_, ?_⟩
  · unfold PacketQueue.queuePacketList nextMessageNumber
    rw [hord]
    simp
  · unfold PacketQueue.queuePacketList nextMessageNumber
    rw [hord]
    simp
  · intro i hi
    rw [preparePackets_get _ _ _ hi (hlen ▸ hi)]
    unfold Pkt.writeMessageNumber nextMessageNumber msgMod
    simp
  · intro i hi
    rw [preparePackets_get _ _ _ hi (hlen ▸ hi)]
    rfl
  · intro i hi h1
    rw [preparePackets_get _ _ _ hi (hlen ▸ hi)]
    unfold Pkt.writeMessageNumber positionFor
    rw [if_pos h1]
  · intro i hi h2
    rw [preparePackets_get _ _ _ hi (hlen ▸ hi)]
    unfold Pkt.writeMessageNumber positionFor
    have hj : i < l.packets.length := hlen ▸ hi
    split_ifs with hone hzero hlast <;> simp <;> omega
  · intro i hi h2
    rw [preparePackets_get _ _ _ hi (hlen ▸ hi)]
    unfold Pkt.writeMessageNumber positionFor
    have hj : i < l.packets.length := hlen ▸ hi
    split_ifs with hone hzero hlast <;> simp <;> omega
  · intro i hi h2 hpos hmid
    rw [preparePackets_get _ _ _ hi (hlen ▸ hi)]
    unfold Pkt.writeMessageNumber positionFor
    split_ifs with hone hzero hlast <;> first | rfl | omega

/-- Witness for `queuePacketList_ordered_stamping` on a three-packet ordered
list: the queue advances its message counter and the third packet is stamped
LAST. -/
theorem queuePacketList_ordered_stamping_witness :
    (PacketQueue.queuePacketList {} { packets := [{}, {}, {}], isOrdered := true }).currentMessageNumber
        = nextMessageNumber {} ∧
    ((preparePackets (nextMessageNumber {}) [{}, {}, {}]).get
        ⟨2, by decide⟩).packetPosition = PacketPosition.LAST := by
  have h := queuePacketList_ordered_stamping {} { packets := [{}, {}, {}], isOrdered := true } rfl
  exact ⟨h.2.1, (h.2.2.2.2.2.2.1 2 (by decide) (by decide)).mpr (by decide)⟩

/-- Modelled from the spec: the scan performed by `PacketQueue::takePacket`.
The cursor is normalized into the first `min length 16` channels; the scan
takes the head packet of the current channel and advances the cursor, skipping
empty channels and removing them (the main channel, index 0, is skipped but
never removed).  The recursion is bounded by explicit fuel. -/
def takeScan : Nat → List (List Pkt) → Nat → Option Pkt × List (List Pkt) × Nat
  | 0, chans, cur => (none, chans, cur)
  | Nat.succ fuel, chans, cur =>
    if min chans.length 16 = 0 then (none, chans, cur)
    else
      match chans[cur % min chans.length 16]? with
      | none => (none, chans, cur)
      | some [] =>
          if cur % min chans.length 16 = 0 then takeScan fuel chans 1
          else takeScan fuel (chans.eraseIdx (cur % min chans.length 16))
            (cur % min chans.length 16)
      | some (p :: rest) =>
          (some p, chans.set (cur % min chans.length 16) rest,
            (cur % min chans.length 16 + 1) % min chans.length 16)

/-- Modelled from the spec: `PacketQueue::takePacket` dequeues one packet from
one of the first sixteen channels in round-robin fashion. -/
def PacketQueue.takePacket (q : PacketQueue) : Option Pkt × PacketQueue :=
  (  (takeScan (q.channels.length + 16) q.channels q.currentChannel).1,
    { q with
      channels := (takeScan (q.channels.length + 16) q.channels q.currentChannel).2.1
      currentChannel := (takeScan (q.channels.length + 16) q.channels q.currentChannel).2.2 })

/-- `k` successive `takePacket` calls, collecting the dequeued packets. -/
def PacketQueue.takeN : Nat → PacketQueue → List (Option Pkt) × PacketQueue
  | 0, q => ([], q)
  | Nat.succ k, q =>
    ((q.takePacket.1 :: (PacketQueue.takeN k q.takePacket.2).1),
      (PacketQueue.takeN k q.takePacket.2).2)

theorem takeScan_take (fuel : Nat) (chans : List (List Pkt)) (cur : Nat)
    (p : Pkt) (rest : List Pkt)
    (hlen : 16 ≤ chans.length) (hcur : cur < 16)
    (hget : chans[cur]? = some (p :: rest)) :
    takeScan (fuel + 1) chans cur = (some p, chans.set cur rest, (cur + 1) % 16) := by
  have hmin : min chans.length 16 = 16 := by omega
  have hmod : cur % min chans.length 16 = cur := by
    rw [hmin]
    exact Nat.mod_eq_of_lt hcur
  have hne : ¬ (min chans.length 16 = 0) := by omega
  unfold takeScan
  rw [if_neg hne, hmod, hget, hmin]

theorem takePacket_step (q : PacketQueue) (p : Pkt) (rest : List Pkt)
    (hlen : 16 ≤ q.channels.length) (hcur : q.currentChannel < 16)
    (hget : q.channels[q.currentChannel]? = some (p :: rest)) :
    q.takePacket = (some p,
      { q with
        channels := q.channels.set q.currentChannel rest
        currentChannel := (q.currentChannel + 1) % 16 }) := by
  have hfuel : q.channels.length + 16 = (q.channels.length + 15) + 1 := rfl
  unfold PacketQueue.takePacket
  rw [hfuel, takeScan_take (q.channels.length + 15) q.channels q.currentChannel p rest hlen hcur hget]

theorem takeN_window (k : Nat) : ∀ (q : PacketQueue),
    16 ≤ q.channels.length → q.currentChannel < 16 → k ≤ 16 →
    (∀ j, j < k → ∃ p rest, q.channels[(q.currentChannel + j) % 16]? = some (p :: rest)) →
    (PacketQueue.takeN k q).2.currentMessageNumber = q.currentMessageNumber ∧
    (PacketQueue.takeN k q).2.currentChannel = (q.currentChannel + k) % 16 ∧
    (PacketQueue.takeN k q).2.channels.length = q.channels.length ∧
    (∀ i, (PacketQueue.takeN k q).2.channels[i]? =
       if i < 16 ∧ (i + 16 - q.currentChannel) % 16 < k
       then (q.channels[i]?).map List.tail
       else q.channels[i]?) ∧
    (∀ r ∈ (PacketQueue.takeN k q).1, r.isSome = true) := by
  induction k with
  | zero =>
      intro q hlen hcur _ _
      refine ⟨rfl, by simpa [PacketQueue.takeN] using by omega, rfl, ?_, ?_⟩
      · intro i
        rw [if_neg]
        · rfl
        · omega
      · intro r hr
        simp [PacketQueue.takeN] at hr
  | succ k ih =>
      intro q hlen hcur hk hchan
      obtain ⟨p, rest, hget0⟩ := hchan 0 (by omega)
      rw [show (q.currentChannel + 0) % 16 = q.currentChannel by omega] at hget0
      have hstep := takePacket_step q p rest hlen hcur hget0
      have hq2c : q.takePacket.2.channels = q.channels.set q.currentChannel rest := by
        rw [hstep]
      have hq2cur : q.takePacket.2.currentChannel = (q.currentChannel + 1) % 16 := by
        rw [hstep]
      have hq2m : q.takePacket.2.currentMessageNumber = q.currentMessageNumber := by
        rw [hstep]
      have hq2p : q.takePacket.1 = some p := by
        rw [hstep]
      have hlen2 : 16 ≤ q.takePacket.2.channels.length := by
        rw [hq2c, List.length_set]
        exact hlen
      have hcur2 : q.takePacket.2.currentChannel < 16 := by
        rw [hq2cur]
        exact Nat.mod_lt _ (by omega)
      have hchan2 : ∀ j, j < k →
          ∃ p2 rest2, q.takePacket.2.channels[(q.takePacket.2.currentChannel + j) % 16]?
            = some (p2 :: rest2) := by
        intro j hj
        have hidx : (q.takePacket.2.currentChannel + j) % 16 = (q.currentChannel + (j + 1)) % 16 := by
          rw [hq2cur]
          omega
        have hnec : q.currentChannel ≠ (q.currentChannel + (j + 1)) % 16 := by
          omega
        rw [hidx, hq2c, List.getElem?_set_ne hnec]
        exact hchan (j + 1) (by omega)
      have ihq := ih q.takePacket.2 hlen2 hcur2 (by omega) hchan2
      have htn1 : (PacketQueue.takeN (k + 1) q).1
          = q.takePacket.1 :: (PacketQueue.takeN k q.takePacket.2).1 := rfl
      have htn2 : (PacketQueue.takeN (k + 1) q).2 = (PacketQueue.takeN k q.takePacket.2).2 := rfl
      refine ⟨?_, ?_, ?_, ?_, ?_⟩
      · rw [htn2, ihq.1, hq2m]
      · rw [htn2, ihq.2.1, hq2cur]
        omega
      · rw [htn2, ihq.2.2.1, hq2c, List.length_set]
      · intro i
        rw [htn2, ihq.2.2.2.1 i, hq2c, hq2cur]
        by_cases hi16 : i < 16
        · by_cases hic : i = q.currentChannel
          · rw [hic]
            have hcond2 : ¬ (q.currentChannel < 16 ∧
                (q.currentChannel + 16 - (q.currentChannel + 1) % 16) % 16 < k) := by
              omega
            have hcond1 : q.currentChannel < 16 ∧
                (q.currentChannel + 16 - q.currentChannel) % 16 < k + 1 := by
              omega
            rw [if_neg hcond2, if_pos hcond1, List.getElem?_set_self (by omega), hget0]
            rfl
          · rw [List.getElem?_set_ne (fun h => hic h.symm)]
            have hiff : ((i + 16 - (q.currentChannel + 1) % 16) % 16 < k)
                ↔ ((i + 16 - q.currentChannel) % 16 < k + 1) := by
              omega
            by_cases hcond : (i + 16 - q.currentChannel) % 16 < k + 1
            · rw [if_pos ⟨hi16, hiff.mpr hcond⟩, if_pos ⟨hi16, hcond⟩]
            · rw [if_neg (fun h => hcond (hiff.mp h.2)), if_neg (fun h => hcond h.2)]
        · have hic : i ≠ q.currentChannel := by omega
          rw [List.getElem?_set_ne (fun h => hic h.symm), if_neg (fun h => hi16 h.1),
            if_neg (fun h => hi16 h.1)]
      · intro r hr
        rw [htn1] at hr
        rcases List.mem_cons.mp hr with h | h
        · rw [h, hq2p]
          rfl
        · exact ihq.2.2.2.2 r h

/-- C7: with at least 16 channels, the cursor within the first 16, and every
channel non-empty, a window of 16 consecutive `takePacket` calls returns a
packet on every call, removes exactly the head packet of each of the first 16
channels, and leaves channel 17 and beyond (indices 16 and up) untouched. -/
theorem takePacket_roundRobin_fairness (q : PacketQueue)
    (hlen : 16 ≤ q.channels.length) (hcur : q.currentChannel < 16)
    (hne : ∀ ch ∈ q.channels, ch ≠ []) :
    (∀ r ∈ (PacketQueue.takeN 16 q).1, r.isSome = true) ∧
    (∀ i, i < 16 → (PacketQueue.takeN 16 q).2.channels[i]? = (q.channels[i]?).map List.tail) ∧
    (∀ i, 16 ≤ i → (PacketQueue.takeN 16 q).2.channels[i]? = q.channels[i]?) := by
  have hchan : ∀ j, j < 16 →
      ∃ p rest, q.channels[(q.currentChannel + j) % 16]? = some (p :: rest) := by
    intro j _
    have hidx : (q.currentChannel + j) % 16 < q.channels.length := by
      have := Nat.mod_lt (q.currentChannel + j) (y := 16) (by omega)
      omega
    cases hch : q.channels[(q.currentChannel + j) % 16] with
    | nil => exact absurd rfl (hne [] (hch ▸ List.getElem_mem hidx))
    | cons p rest =>
        exact ⟨p, rest, by rw [List.getElem?_eq_getElem hidx, hch]⟩
  have h := takeN_window 16 q hlen hcur (le_refl 16) hchan
  refine ⟨h.2.2.2.2, ?_, ?_⟩
  · intro i hi
    have := h.2.2.2.1 i
    rw [if_pos ⟨hi, by omega⟩] at this
    exact this
  · intro i hi
    have := h.2.2.2.1 i
    rw [if_neg (fun hx => by omega)] at this
    exact this

/-- Witness for `takePacket_roundRobin_fairness` on a 17-channel queue of
singleton channels: channel 17 (index 16) is untouched by 16 calls while
channel 0 loses its only packet. -/
theorem takePacket_roundRobin_fairness_witness :
    (PacketQueue.takeN 16
        { channels := (List.range 17).map (fun n => [{ payload := n }]) }).2.channels[16]?
      = ((List.range 17).map (fun n => ([{ payload := n }] : List Pkt)))[16]? ∧
    (PacketQueue.takeN 16
        { channels := (List.range 17).map (fun n => [{ payload := n }]) }).2.channels[0]?
      = (((List.range 17).map (fun n => ([{ payload := n }] : List Pkt)))[0]?).map List.tail := by
  have h := takePacket_roundRobin_fairness
    { channels := (List.range 17).map (fun n => [{ payload := n }]) }
    (by decide) (by decide) (by decide)
  exact ⟨h.2.2 16 (by decide), h.2.1 0 (by decide)⟩

/-! ## Send queue

Embedded from `SendQueue.h`.  The state carries the packet queue, the
retransmission table `_sentPackets` (a map from sequence number to
(resend count, packet), modelled as an association list), the loss list
`_naks`, `_lastACKSequenceNumber`, `_currentSequenceNumber`, the flow window
size and the handshake-ACK flag.  The two `Log` fields are ghost history used
only to state invariants: `sentLog` records every (sequence number, reliable)
pair ever sent and `ackedLog` every sequence number ever acknowledged. -/

/-- An entry of the retransmission table (`SendQueue.h`
`PacketResendPair`): number of resends plus the packet. -/
structure SentEntry where
  resendCount : Nat
  packet : Pkt
deriving DecidableEq, Repr

/-- The `SendQueue` state (`SendQueue.h` members, concurrency primitives and
the socket handle omitted; `sentLog`/`ackedLog` are ghost history). -/
structure SendQueueState where
  packets : PacketQueue := {}
  sentPackets : List (Nat × SentEntry) := []
  naks : List Nat := []
  lastACKSequenceNumber : Nat := 0
  currentSequenceNumber : Nat := 0
  flowWindowSize : Nat := 16
  hasReceivedHandshakeACK : Bool := false
  sentLog : List (Nat × Bool) := []
  ackedLog : List Nat := []
deriving DecidableEq, Repr

/-- Modelled from the spec: `SendQueue::create` starts a queue at the given
initial sequence number and message number with the given handshake-ACK flag;
nothing at or before the initial sequence number is outstanding. -/
def createSendQueue (isn msgn : Nat) (hs : Bool) : SendQueueState :=
  { packets := { currentMessageNumber := msgn % msgMod }
    lastACKSequenceNumber := isn % seqMod
    currentSequenceNumber := isn % seqMod
    hasReceivedHandshakeACK := hs }

/-- `s` lies in the half-open forward interval `[a, n)` of sequence numbers. -/
def inFwdInterval (a n s : Nat) : Prop := fwdDist a s < fwdDist a n

instance (a n s : Nat) : Decidable (inFwdInterval a n s) := by
  unfold inFwdInterval
  exact Nat.decLt _ _

/-- The sequence numbers of the half-open forward interval `[a, n)`, in
forward order. -/
def fwdIntervalList (a n : Nat) : List Nat :=
  (List.range (fwdDist a n)).map (fun i => (a + i) % seqMod)

/-- The keys (sequence numbers) of the retransmission table. -/
def tableKeys (st : SendQueueState) : List Nat := st.sentPackets.map Prod.fst

/-- The sequence numbers ever sent (ghost). -/
def sentSeqs (st : SendQueueState) : List Nat := st.sentLog.map Prod.fst

/-- Modelled from the spec: `SendQueue::getNextSequenceNumber` increments the
current sequence number modulo 2^27. -/
def SendQueueState.getNextSequenceNumber (st : SendQueueState) : Nat :=
  (st.currentSequenceNumber + 1) % seqMod

/-- Modelled from the spec: `SendQueue::ack(n)` removes every sequence number
in the forward interval `[lastACK, n)` from the retransmission table and sets
the last-ACKed sequence number to `n` (§4.3.5). -/
def SendQueueState.ack (st : SendQueueState) (n : Nat) : SendQueueState :=
  { st with
    sentPackets := st.sentPackets.filter
      (fun e => ! decide (inFwdInterval st.lastACKSequenceNumber n e.1))
    lastACKSequenceNumber := n
    ackedLog := st.ackedLog ++ fwdIntervalList st.lastACKSequenceNumber n }

/-- Modelled from the spec: `SendQueue::sendNewPacketAndAddToSentList` stamps
the packet with the next sequence number, transmits it, and, when it is
reliable, inserts it into the retransmission table with resend count 0
(§4.3.2). -/
def SendQueueState.sendNewPacketAndAddToSentList (st : SendQueueState) (p : Pkt) : SendQueueState :=
  { st with
    currentSequenceNumber := st.getNextSequenceNumber
    sentPackets :=
      if p.isReliable then
        (st.getNextSequenceNumber,
          ⟨0, { p with sequenceNumber := st.getNextSequenceNumber }⟩) :: st.sentPackets
      else st.sentPackets
    sentLog := (st.getNextSequenceNumber, p.isReliable) :: st.sentLog }

/-- Sorted insertion into the loss list, without duplicates (`LossList`
insert, modelled from the spec). -/
def lossListInsert (n : Nat) : List Nat → List Nat
  | [] => [n]
  | m :: rest =>
      if n < m then n :: m :: rest
      else if n = m then m :: rest
      else m :: lossListInsert n rest

/-- Modelled from the spec: `SendQueue::fastRetransmit(n)` inserts `n` into
the loss list if it is present in the retransmission table (§4.3.6). -/
def SendQueueState.fastRetransmit (st : SendQueueState) (n : Nat) : SendQueueState :=
  if n ∈ tableKeys st then { st with naks := lossListInsert n st.naks } else st

/-- Modelled from the spec: the retransmission scan (§4.3.1).  Pop the
smallest loss-list entry; if it is in the retransmission table, bump its
resend count and resend it; entries no longer in the table (already ACKed)
are skipped. Returns the resent (sequence number, entry) if any, the
remaining loss list and the updated table. -/
def resendScan : List Nat → List (Nat × SentEntry) →
    Option (Nat × SentEntry) × List Nat × List (Nat × SentEntry)
  | [], tbl => (none, [], tbl)
  | s :: rest, tbl =>
      match tbl.find? (fun e => e.1 == s) with
      | some e =>
          (some (s, ⟨e.2.resendCount + 1, e.2.packet⟩), rest,
            tbl.map (fun e2 =>
              if e2.1 == s then (e2.1, ⟨e2.2.resendCount + 1, e2.2.packet⟩) else e2))
      | none => resendScan rest tbl

/-- Modelled from the spec: one retransmission attempt of the pacing loop. -/
def SendQueueState.maybeResendPacket (st : SendQueueState) : SendQueueState :=
  { st with
    naks := (resendScan st.naks st.sentPackets).2.1
    sentPackets := (resendScan st.naks st.sentPackets).2.2 }

/-- Modelled from the spec: `SendQueue::handshakeACK` records receipt of the
peer's HandshakeACK (§4.3.7). -/
def SendQueueState.handshakeACK (st : SendQueueState) : SendQueueState :=
  { st with hasReceivedHandshakeACK := true }

/-- Modelled from the spec: `SendQueue::queuePacket` buffers a packet on the
main channel of the packet queue. -/
def SendQueueState.queuePacket (st : SendQueueState) (p : Pkt) : SendQueueState :=
  { st with packets := st.packets.queuePacket p }

/-- Modelled from the spec: `SendQueue::queuePacketList` buffers a packet
list as a new channel of the packet queue. -/
def SendQueueState.queuePacketList (st : SendQueueState) (l : PktList) : SendQueueState :=
  { st with packets := st.packets.queuePacketList l }

theorem mem_fwdIntervalList (a n s : Nat) (ha : a < seqMod) :
    s ∈ fwdIntervalList a n ↔ (s < seqMod ∧ inFwdInterval a n s) := by
  unfold fwdIntervalList inFwdInterval
  simp only [List.mem_map, List.mem_range]
  constructor
  · rintro ⟨i, hi, rfl⟩
    have hfn := fwdDist_lt a n
    have hd : fwdDist a ((a + i) % seqMod) = i := by
      unfold fwdDist seqMod at *
      omega
    refine ⟨by unfold seqMod at *; omega, by omega⟩
  · rintro ⟨hs, hlt⟩
    refine ⟨fwdDist a s, hlt, ?_⟩
    unfold fwdDist seqMod at *
    omega

/-- C2: `SendQueue::ack(n)` sets the last-ACKed sequence number to `n`,
removes from the retransmission table exactly the entries whose sequence
number lies in the forward interval `[lastACK, n)`, and leaves every other
entry unchanged. -/
theorem sendQueue_ack_spec (st : SendQueueState) (n : Nat) :
    (st.ack n).lastACKSequenceNumber = n ∧
    (∀ s, s ∈ tableKeys (st.ack n) ↔
      (s ∈ tableKeys st ∧ ¬ inFwdInterval st.lastACKSequenceNumber n s)) ∧
    (∀ s e, ¬ inFwdInterval st.lastACKSequenceNumber n s →
      ((s, e) ∈ (st.ack n).sentPackets ↔ (s, e) ∈ st.sentPackets)) ∧
    (∀ s e, inFwdInterval st.lastACKSequenceNumber n s →
      (s, e) ∉ (st.ack n).sentPackets) := by
  refine ⟨rfl, ?_, ?_, ?_⟩
  · intro s
    unfold tableKeys SendQueueState.ack
    simp only [List.mem_map, List.mem_filter, Bool.not_eq_eq_eq_not, Bool.not_true,
      decide_eq_false_iff_not]
    constructor
    · rintro ⟨e, ⟨he, hni⟩, rfl⟩
      exact ⟨⟨e, he, rfl⟩, hni⟩
    · rintro ⟨⟨e, he, rfl⟩, hni⟩
      exact ⟨e, ⟨he, hni⟩, rfl⟩
  · intro s e hni
    unfold SendQueueState.ack
    simp only [List.mem_filter, Bool.not_eq_eq_eq_not, Bool.not_true, decide_eq_false_iff_not]
    exact ⟨fun h => h.1, fun h => ⟨h, hni⟩⟩
  · intro s e hin
    unfold SendQueueState.ack
    simp only [List.mem_filter, Bool.not_eq_eq_eq_not, Bool.not_true, decide_eq_false_iff_not]
    exact fun h => h.2 hin

/-- What a pacing-loop iteration puts on the wire. -/
inductive SendEvent where
  | handshakePacket
  | packetSent (seq : Nat)
  | packetRetransmitted (seq : Nat)
  | idle
deriving DecidableEq, Repr

/-- Modelled from the spec: `SendQueue::isFlowWindowFull` — the number of
packets in flight (between the last ACK and the current sequence number)
reaches the flow window size. -/
def SendQueueState.isFlowWindowFull (st : SendQueueState) : Bool :=
  decide (st.flowWindowSize ≤ fwdDist st.lastACKSequenceNumber st.currentSequenceNumber)

/-- Modelled from the spec: one iteration of the pacing loop (§4.3, `run`).
If the handshake ACK has not been received, a Handshake control packet is
sent and nothing else happens; otherwise try a retransmission, then (window
permitting) a new send from the packet queue. -/
def SendQueueState.pacingIteration (st : SendQueueState) : SendEvent × SendQueueState :=
  if st.hasReceivedHandshakeACK = false then (SendEvent.handshakePacket, st)
  else
    match resendScan st.naks st.sentPackets with
    | (some e, naks2, tbl2) =>
        (SendEvent.packetRetransmitted e.1, { st with naks := naks2, sentPackets := tbl2 })
    | (none, naks2, _) =>
        if st.isFlowWindowFull then (SendEvent.idle, { st with naks := naks2 })
        else
          match st.packets.takePacket with
          | (some p, pq2) =>
              (SendEvent.packetSent st.getNextSequenceNumber,
                SendQueueState.sendNewPacketAndAddToSentList { st with packets := pq2 } p)
          | (none, pq2) => (SendEvent.idle, { st with packets := pq2, naks := naks2 })

/-- The events emitted and state reached by `k` pacing-loop iterations. -/
def pacingTrace : Nat → SendQueueState → List SendEvent × SendQueueState
  | 0, st => ([], st)
  | Nat.succ k, st =>
      ((st.pacingIteration.1 :: (pacingTrace k st.pacingIteration.2).1),
        (pacingTrace k st.pacingIteration.2).2)

/-- C8: while `hasReceivedHandshakeACK` is false, any number of pacing-loop
iterations only emits Handshake control packets — no data packet is
transmitted, and the whole send-queue state (buffered packet queue,
retransmission table, loss list, sequence counters) is unchanged. -/
theorem handshake_gating (k : Nat) (st : SendQueueState)
    (h : st.hasReceivedHandshakeACK = false) :
    pacingTrace k st = (List.replicate k SendEvent.handshakePacket, st) := by
  induction k with
  | zero => rfl
  | succ k ih =>
      have hit : st.pacingIteration = (SendEvent.handshakePacket, st) := by
        unfold SendQueueState.pacingIteration
        rw [if_pos h]
      show ((st.pacingIteration.1 :: (pacingTrace k st.pacingIteration.2).1),
          (pacingTrace k st.pacingIteration.2).2)
        = (List.replicate (k + 1) SendEvent.handshakePacket, st)
      rw [hit]
      show (SendEvent.handshakePacket :: (pacingTrace k st).1, (pacingTrace k st).2)
        = (List.replicate (k + 1) SendEvent.handshakePacket, st)
      rw [ih]
      rfl

/-- Witness for `handshake_gating`: three pacing iterations on a fresh queue
with unacknowledged handshake emit exactly three Handshake packets and leave
the state untouched. -/
theorem handshake_gating_witness :
    pacingTrace 3 (createSendQueue 0 0 false)
      = ([SendEvent.handshakePacket, SendEvent.handshakePacket, SendEvent.handshakePacket],
         createSendQueue 0 0 false) :=
  handshake_gating 3 (createSendQueue 0 0 false) rfl

theorem map_fst_bump (s : Nat) (tbl : List (Nat × SentEntry)) :
    (tbl.map (fun e2 =>
        if e2.1 == s then (e2.1, (⟨e2.2.resendCount + 1, e2.2.packet⟩ : SentEntry)) else e2)).map
      Prod.fst = tbl.map Prod.fst := by
  induction tbl with
  | nil => rfl
  | cons e rest ih =>
      simp only [List.map_cons, ih]
      cases h : (e.1 == s) with
      | false => rw [if_neg (by simp)]
      | true => rw [if_pos rfl]

theorem resendScan_keys : ∀ (naks : List Nat) (tbl : List (Nat × SentEntry)),
    ((resendScan naks tbl).2.2).map Prod.fst = tbl.map Prod.fst := by
  intro naks
  induction naks with
  | nil => intro tbl; rfl
  | cons s rest ih =>
      intro tbl
      unfold resendScan
      cases hfind : tbl.find? (fun e => e.1 == s) with
      | none => simpa [hfind] using ih tbl
      | some e => simpa [hfind] using map_fst_bump s tbl

theorem mem_tableKeys_ack (st : SendQueueState) (n s : Nat) :
    s ∈ tableKeys (st.ack n) ↔
      (s ∈ tableKeys st ∧ ¬ inFwdInterval st.lastACKSequenceNumber n s) := by
  unfold tableKeys SendQueueState.ack
  simp only [List.mem_map, List.mem_filter, Bool.not_eq_eq_eq_not, Bool.not_true,
    decide_eq_false_iff_not]
  constructor
  · rintro ⟨e, ⟨he, hni⟩, rfl⟩
    exact ⟨⟨e, he, rfl⟩, hni⟩
  · rintro ⟨⟨e, he, rfl⟩, hni⟩
    exact ⟨e, ⟨he, hni⟩, rfl⟩

/-- The transitions of a send queue: a new send (with a fresh sequence
number, excluding wrap-around reuse of an outstanding number — spec
invariant 3), a validated cumulative ACK (`Connection::processACK` validates
the ACK against the sent range before forwarding, §4.5), a fast-retransmit
hint, a retransmission attempt, the handshake ACK, and the two enqueue
operations. -/
inductive SQStep : SendQueueState → SendQueueState → Prop where
  | send (st : SendQueueState) (p : Pkt)
      (hfresh : st.getNextSequenceNumber ∉ sentSeqs st) :
      SQStep st (st.sendNewPacketAndAddToSentList p)
  | ack (st : SendQueueState) (n : Nat) (hn : n < seqMod)
      (hvalid : ∀ s, s < seqMod → inFwdInterval st.lastACKSequenceNumber n s → s ∈ sentSeqs st) :
      SQStep st (st.ack n)
  | fastRetransmit (st : SendQueueState) (n : Nat) : SQStep st (st.fastRetransmit n)
  | resend (st : SendQueueState) : SQStep st st.maybeResendPacket
  | handshakeACK (st : SendQueueState) : SQStep st st.handshakeACK
  | queuePacket (st : SendQueueState) (p : Pkt) : SQStep st (st.queuePacket p)
  | queuePacketList (st : SendQueueState) (l : PktList) : SQStep st (st.queuePacketList l)

/-- The reachable send-queue states: a freshly created queue followed by any
sequence of transitions. -/
inductive SQReachable : SendQueueState → Prop where
  | create (isn msgn : Nat) (hs : Bool) : SQReachable (createSendQueue isn msgn hs)
  | step {st st2 : SendQueueState} : SQReachable st → SQStep st st2 → SQReachable st2

/-- The send-queue invariant: the retransmission table holds exactly the
reliably sent, not-yet-acknowledged sequence numbers, the acknowledged
numbers were all sent, and all tracked numbers are reduced modulo 2^27. -/
def SQInv (st : SendQueueState) : Prop :=
  (∀ s, s ∈ tableKeys st ↔ ((s, true) ∈ st.sentLog ∧ s ∉ st.ackedLog)) ∧
  (∀ s, s ∈ st.ackedLog → s ∈ sentSeqs st) ∧
  (∀ s, s ∈ sentSeqs st → s < seqMod) ∧
  st.lastACKSequenceNumber < seqMod

theorem sqInv_of_reachable (st : SendQueueState) (h : SQReachable st) : SQInv st := by
  induction h with
  | create isn msgn hs =>
      refine ⟨?_, ?_, ?_, ?_⟩
      · intro s
        simp [createSendQueue, tableKeys]
      · intro s hs2
        simp [createSendQueue] at hs2
      · intro s hs2
        simp [createSendQueue, sentSeqs] at hs2
      · exact Nat.mod_lt _ (by decide)
  | step hreach hstep ih =>
      rename_i st st2
      obtain ⟨ih1, ih2, ih3, ih4⟩ := ih
      cases hstep with
      | send p hfresh =>
          have hnext : st.getNextSequenceNumber < seqMod :=
            Nat.mod_lt _ (by decide)
          have hnacked : st.getNextSequenceNumber ∉ st.ackedLog := fun hmem =>
            hfresh (ih2 _ hmem)
          have hseqs : sentSeqs (st.sendNewPacketAndAddToSentList p)
              = st.getNextSequenceNumber :: sentSeqs st := rfl
          have hack : (st.sendNewPacketAndAddToSentList p).ackedLog = st.ackedLog := rfl
          refine ⟨?_, ?_, ?_, ih4⟩
          · intro s
            cases hR : p.isReliable with
            | true =>
                have hkeys : tableKeys (st.sendNewPacketAndAddToSentList p)
                    = st.getNextSequenceNumber :: tableKeys st := by
                  unfold tableKeys SendQueueState.sendNewPacketAndAddToSentList
                  rw [hR]
                  rfl
                have hlog : (st.sendNewPacketAndAddToSentList p).sentLog
                    = (st.getNextSequenceNumber, true) :: st.sentLog := by
                  unfold SendQueueState.sendNewPacketAndAddToSentList
                  rw [hR]
                rw [hkeys, hlog, hack]
                simp only [List.mem_cons, Prod.mk.injEq]
                by_cases hseq : s = st.getNextSequenceNumber
                · subst hseq
                  exact ⟨fun _ => ⟨Or.inl (by simp), hnacked⟩, fun _ => Or.inl rfl⟩
                · constructor
                  · rintro (h | h)
                    · exact absurd h hseq
                    · obtain ⟨hl, hr⟩ := (ih1 s).mp h
                      exact ⟨Or.inr hl, hr⟩
                  · rintro ⟨hlog2 | hlog2, hna⟩
                    · exact absurd hlog2.1 hseq
                    · exact Or.inr ((ih1 s).mpr ⟨hlog2, hna⟩)
            | false =>
                have hkeys : tableKeys (st.sendNewPacketAndAddToSentList p)
                    = tableKeys st := by
                  unfold tableKeys SendQueueState.sendNewPacketAndAddToSentList
                  rw [hR]
                  rfl
                have hlog : (st.sendNewPacketAndAddToSentList p).sentLog
                    = (st.getNextSequenceNumber, false) :: st.sentLog := by
                  unfold SendQueueState.sendNewPacketAndAddToSentList
                  rw [hR]
                rw [hkeys, hlog, hack]
                simp only [List.mem_cons, Prod.mk.injEq]
                constructor
                · intro h
                  obtain ⟨hl, hr⟩ := (ih1 s).mp h
                  exact ⟨Or.inr hl, hr⟩
                · rintro ⟨hlog2 | hlog2, hna⟩
                  · exact absurd hlog2.2 (by simp)
                  · exact (ih1 s).mpr ⟨hlog2, hna⟩
          · intro s hmem
            rw [hack] at hmem
            rw [hseqs]
            exact List.mem_cons_of_mem _ (ih2 s hmem)
          · intro s hmem
            rw [hseqs] at hmem
            rcases List.mem_cons.mp hmem with h | h
            · rw [h]
              exact hnext
            · exact ih3 s h
      | ack n hn hvalid =>
          have hsBound : ∀ s, (s, true) ∈ st.sentLog → s < seqMod := by
            intro s hmem
            exact ih3 s (List.mem_map.mpr ⟨(s, true), hmem, rfl⟩)
          refine ⟨?_, ?_, ?_, hn⟩
          · intro s
            rw [mem_tableKeys_ack]
            show _ ↔ (s, true) ∈ st.sentLog ∧
              s ∉ st.ackedLog ++ fwdIntervalList st.lastACKSequenceNumber n
            constructor
            · rintro ⟨hk, hni⟩
              obtain ⟨hlog, hna⟩ := (ih1 s).mp hk
              refine ⟨hlog, fun hmem => ?_⟩
              rcases List.mem_append.mp hmem with h | h
              · exact hna h
              · exact hni ((mem_fwdIntervalList _ _ _ ih4).mp h).2
            · rintro ⟨hlog, hna⟩
              have hna1 : s ∉ st.ackedLog := fun h => hna (List.mem_append.mpr (Or.inl h))
              have hni : ¬ inFwdInterval st.lastACKSequenceNumber n s := fun h =>
                hna (List.mem_append.mpr (Or.inr
                  ((mem_fwdIntervalList _ _ _ ih4).mpr ⟨hsBound s hlog, h⟩)))
              exact ⟨(ih1 s).mpr ⟨hlog, hna1⟩, hni⟩
          · intro s hmem
            show s ∈ sentSeqs st
            rcases List.mem_append.mp hmem with h | h
            · exact ih2 s h
            · obtain ⟨hlt, hin⟩ := (mem_fwdIntervalList _ _ _ ih4).mp h
              exact hvalid s hlt hin
          · intro s hmem
            exact ih3 s hmem
      | fastRetransmit n =>
          unfold SendQueueState.fastRetransmit
          split
          · exact ⟨ih1, ih2, ih3, ih4⟩
          · exact ⟨ih1, ih2, ih3, ih4⟩
      | resend =>
          refine ⟨?_, ih2, ih3, ih4⟩
          intro s
          have hkeys : tableKeys st.maybeResendPacket = tableKeys st := by
            unfold tableKeys SendQueueState.maybeResendPacket
            exact resendScan_keys st.naks st.sentPackets
          rw [hkeys]
          exact ih1 s
      | handshakeACK => exact ⟨ih1, ih2, ih3, ih4⟩
      | queuePacket p => exact ⟨ih1, ih2, ih3, ih4⟩
      | queuePacketList l => exact ⟨ih1, ih2, ih3, ih4⟩

/-- C1 (amended): at every reachable send-queue state, the retransmission
table contains exactly the sequence numbers of the reliably sent packets that
have not yet been acknowledged.  (The table is NOT disjoint from the loss
list: a fast-retransmit hint puts a sequence number on the loss list while it
stays in the table, see the counterexample.) -/
theorem retransmission_table_invariant (st : SendQueueState) (h : SQReachable st) (s : Nat) :
    s ∈ tableKeys st ↔ ((s, true) ∈ st.sentLog ∧ s ∉ st.ackedLog) :=
  (sqInv_of_reachable st h).1 s

/-- Witness for `retransmission_table_invariant` at a concrete reachable
state: after reliably sending one packet, its sequence number 1 is in the
table iff it is logged as sent and unacknowledged. -/
theorem retransmission_table_invariant_witness :
    1 ∈ tableKeys ((createSendQueue 0 0 true).sendNewPacketAndAddToSentList
        { isReliable := true }) ↔
      ((1, true) ∈ ((createSendQueue 0 0 true).sendNewPacketAndAddToSentList
          { isReliable := true }).sentLog ∧
        1 ∉ ((createSendQueue 0 0 true).sendNewPacketAndAddToSentList
          { isReliable := true }).ackedLog) :=
  retransmission_table_invariant _
    (SQReachable.step (SQReachable.create 0 0 true) (SQStep.send _ _ (by decide))) 1

/-- C1 counterexample: in the reachable state reached by reliably sending one
packet and then receiving a fast-retransmit hint for it, sequence number 1 is
in the retransmission table AND in the loss list, so the table is not
"exactly the reliable un-ACKed packets not in the loss list" as the claim
states. -/
theorem retransmission_table_lossList_counterexample :
    SQReachable (((createSendQueue 0 0 true).sendNewPacketAndAddToSentList
        { isReliable := true }).fastRetransmit 1) ∧
    ¬ (∀ s, s ∈ tableKeys (((createSendQueue 0 0 true).sendNewPacketAndAddToSentList
          { isReliable := true }).fastRetransmit 1) ↔
        ((s, true) ∈ (((createSendQueue 0 0 true).sendNewPacketAndAddToSentList
            { isReliable := true }).fastRetransmit 1).sentLog ∧
          s ∉ (((createSendQueue 0 0 true).sendNewPacketAndAddToSentList
            { isReliable := true }).fastRetransmit 1).ackedLog ∧
          s ∉ (((createSendQueue 0 0 true).sendNewPacketAndAddToSentList
            { isReliable := true }).fastRetransmit 1).naks)) := by
  constructor
  · exact SQReachable.step
      (SQReachable.step (SQReachable.create 0 0 true) (SQStep.send _ _ (by decide)))
      (SQStep.fastRetransmit _ 1)
  · intro hall
    exact absurd (hall 1) (by decide)

/-! ## Receiver path

Embedded from `Connection.h`.  `Connection::processReceivedSequenceNumber`
decides whether a received data packet should be processed; its body is not
in the snapshot and is modelled from the spec (§4.4). -/

/-- The receive-side state of a connection: the largest sequence number
received and the receive loss list (`Connection.h`
`_lastReceivedSequenceNumber`, `_lossList`). -/
structure ReceiveState where
  lastReceivedSequenceNumber : Nat := 0
  lossList : List Nat := []
deriving DecidableEq, Repr

/-- Modelled from the spec: `Connection::processReceivedSequenceNumber`
(§4.4).  Advance on the next expected number; on a number ahead of it, insert
the gap into the loss list and advance; on a number behind the last received,
remove it from the loss list if present, otherwise it is a duplicate and is
dropped.  Returns the updated state and whether the packet should be
processed. -/
def processReceivedSequenceNumber (st : ReceiveState) (s : Nat) : ReceiveState × Bool :=
  if s = (st.lastReceivedSequenceNumber + 1) % seqMod then
    ({ st with lastReceivedSequenceNumber := s }, true)
  else if seqLt ((st.lastReceivedSequenceNumber + 1) % seqMod) s then
    ({ lastReceivedSequenceNumber := s,
       lossList := st.lossList ++
         fwdIntervalList ((st.lastReceivedSequenceNumber + 1) % seqMod) s },
     true)
  else if seqLt s st.lastReceivedSequenceNumber then
    if s ∈ st.lossList then ({ st with lossList := st.lossList.erase s }, true)
    else (st, false)
  else (st, false)

theorem seqLt_behind_not_ahead (last s : Nat) (hs : s < seqMod) (_hl : last < seqMod)
    (h : seqLt s last) :
    s ≠ (last + 1) % seqMod ∧ ¬ seqLt ((last + 1) % seqMod) s := by
  unfold seqLt fwdDist seqMod seqHalf at *
  omega

theorem seqLt_irrefl (a : Nat) : ¬ seqLt a a := by
  unfold seqLt fwdDist seqMod seqHalf
  omega

/-- C6: a received sequence number equal to last+1 advances the receiver and
is processed; one ahead of last+1 inserts the forward gap
`[last+1, s)` into the loss list, advances, and is processed; one behind the
last received is processed iff it was in the loss list (and is then removed
from it), and is otherwise a duplicate that is dropped with `false`. -/
theorem processReceivedSequenceNumber_spec (st : ReceiveState) (s : Nat)
    (hs : s < seqMod) (hl : st.lastReceivedSequenceNumber < seqMod) :
    (s = (st.lastReceivedSequenceNumber + 1) % seqMod →
      processReceivedSequenceNumber st s
        = ({ st with lastReceivedSequenceNumber := s }, true)) ∧
    (seqLt ((st.lastReceivedSequenceNumber + 1) % seqMod) s →
      processReceivedSequenceNumber st s
        = ({ lastReceivedSequenceNumber := s,
             lossList := st.lossList ++
               fwdIntervalList ((st.lastReceivedSequenceNumber + 1) % seqMod) s }, true)) ∧
    (seqLt s st.lastReceivedSequenceNumber → s ∈ st.lossList →
      processReceivedSequenceNumber st s = ({ st with lossList := st.lossList.erase s }, true)) ∧
    (seqLt s st.lastReceivedSequenceNumber → s ∉ st.lossList →
      processReceivedSequenceNumber st s = (st, false)) := by
  refine ⟨?_, ?_, ?_, ?_⟩
  · intro h
    unfold processReceivedSequenceNumber
    rw [if_pos h]
  · intro h
    have hne : s ≠ (st.lastReceivedSequenceNumber + 1) % seqMod := by
      intro heq
      rw [heq] at h
      exact seqLt_irrefl _ h
    unfold processReceivedSequenceNumber
    rw [if_neg hne, if_pos h]
  · intro h hmem
    obtain ⟨hne, hna⟩ := seqLt_behind_not_ahead st.lastReceivedSequenceNumber s hs hl h
    unfold processReceivedSequenceNumber
    rw [if_neg hne, if_neg hna, if_pos h, if_pos hmem]
  · intro h hmem
    obtain ⟨hne, hna⟩ := seqLt_behind_not_ahead st.lastReceivedSequenceNumber s hs hl h
    unfold processReceivedSequenceNumber
    rw [if_neg hne, if_neg hna, if_pos h, if_neg hmem]

/-- Witness for `processReceivedSequenceNumber_spec`: with last received 10,
a stale sequence number 5 on the loss list is accepted and removed from the
loss list, while a stale 6 not on the loss list is dropped as a duplicate. -/
theorem processReceivedSequenceNumber_spec_witness :
    processReceivedSequenceNumber { lastReceivedSequenceNumber := 10, lossList := [5] } 5
      = ({ lastReceivedSequenceNumber := 10, lossList := [] }, true) ∧
    processReceivedSequenceNumber { lastReceivedSequenceNumber := 10, lossList := [5] } 6
      = ({ lastReceivedSequenceNumber := 10, lossList := [5] }, false) :=
  ⟨(processReceivedSequenceNumber_spec
      { lastReceivedSequenceNumber := 10, lossList := [5] } 5
      (by decide) (by decide)).2.2.1 (by decide) (by decide),
   (processReceivedSequenceNumber_spec
      { lastReceivedSequenceNumber := 10, lossList := [5] } 6
      (by decide) (by decide)).2.2.2 (by decide) (by decide)⟩

/-! ## Message reassembly

Embedded from `Connection.h` `PendingReceivedMessage`: an ordered collection
of packets for one message number plus the next expected part number.
`enqueuePacket`, `hasAvailablePackets` and `removeNextPacket` bodies are not
in the snapshot; modelled from the spec (§4.4, message reassembly). -/

/-- `Connection.h` `PendingReceivedMessage`: buffered packets of one message
(ordered by part number) and `_nextPartNumber`. -/
structure PendingReceivedMessage where
  packets : List Pkt := []
  nextPartNumber : Nat := 0
deriving DecidableEq, Repr

/-- The part numbers of a packet list. -/
def partsOf (l : List Pkt) : List Nat := l.map (fun p => p.messagePartNumber)

/-- Modelled from the spec: insert a packet into the collector in order by
part number (`PendingReceivedMessage::enqueuePacket`). -/
def insertByPartNumber (p : Pkt) : List Pkt → List Pkt
  | [] => [p]
  | q :: rest =>
      if p.messagePartNumber < q.messagePartNumber then p :: q :: rest
      else q :: insertByPartNumber p rest

/-- `PendingReceivedMessage::enqueuePacket`. -/
def PendingReceivedMessage.enqueuePacket (c : PendingReceivedMessage) (p : Pkt) :
    PendingReceivedMessage :=
  { c with packets := insertByPartNumber p c.packets }

/-- Modelled from the spec: `PendingReceivedMessage::hasAvailablePackets` —
the front packet carries exactly the next expected part number. -/
def PendingReceivedMessage.hasAvailablePackets (c : PendingReceivedMessage) : Bool :=
  match c.packets with
  | [] => false
  | q :: _ => q.messagePartNumber == c.nextPartNumber

/-- Modelled from the spec: pop (deliver) packets while the front part number
equals the next expected part, incrementing it.  Returns the delivered
packets, the remaining buffer, and the new next expected part. -/
def drainPackets : List Pkt → Nat → List Pkt × List Pkt × Nat
  | [], n => ([], [], n)
  | q :: rest, n =>
      if q.messagePartNumber = n then
        ((q :: (drainPackets rest (n + 1)).1),
          (drainPackets rest (n + 1)).2.1, (drainPackets rest (n + 1)).2.2)
      else ([], q :: rest, n)

/-- One packet arrival at the collector: enqueue in part order, then deliver
the available contiguous prefix to the message handler
(`Connection::queueReceivedMessagePacket`). -/
def deliverStep (c : PendingReceivedMessage) (p : Pkt) : List Pkt × PendingReceivedMessage :=
  ((drainPackets (insertByPartNumber p c.packets) c.nextPartNumber).1,
    { packets := (drainPackets (insertByPartNumber p c.packets) c.nextPartNumber).2.1
      nextPartNumber := (drainPackets (insertByPartNumber p c.packets) c.nextPartNumber).2.2 })

/-- Feed a list of arrivals to the collector, concatenating what is delivered. -/
def runCollector : PendingReceivedMessage → List Pkt → List Pkt × PendingReceivedMessage
  | c, [] => ([], c)
  | c, p :: ps =>
      ((deliverStep c p).1 ++ (runCollector (deliverStep c p).2 ps).1,
        (runCollector (deliverStep c p).2 ps).2)

theorem mem_insertByPartNumber (p x : Pkt) (l : List Pkt) :
    x ∈ insertByPartNumber p l ↔ (x = p ∨ x ∈ l) := by
  induction l with
  | nil => simp [insertByPartNumber]
  | cons q rest ih =>
      unfold insertByPartNumber
      split
      · exact List.mem_cons
      · rw [List.mem_cons, ih, List.mem_cons]
        tauto

theorem pairwise_insertByPartNumber (p : Pkt) (l : List Pkt)
    (hl : l.Pairwise (fun a b => a.messagePartNumber < b.messagePartNumber))
    (hfresh : ∀ x ∈ l, x.messagePartNumber ≠ p.messagePartNumber) :
    (insertByPartNumber p l).Pairwise
      (fun a b => a.messagePartNumber < b.messagePartNumber) := by
  induction l with
  | nil => simp [insertByPartNumber]
  | cons q rest ih =>
      obtain ⟨hq, hrest⟩ := List.pairwise_cons.mp hl
      unfold insertByPartNumber
      split
      · rename_i hlt
        refine List.pairwise_cons.mpr ⟨?_, hl⟩
        intro b hb
        rcases List.mem_cons.mp hb with rfl | hb2
        · exact hlt
        · exact lt_trans hlt (hq b hb2)
      · rename_i hnlt
        refine List.pairwise_cons.mpr ⟨?_, ih hrest (fun x hx => hfresh x (List.mem_cons_of_mem q hx))⟩
        intro b hb
        rcases (mem_insertByPartNumber p b rest).mp hb with rfl | hb2
        · have hne := hfresh q (List.mem_cons_self q rest)
          omega
        · exact hq b hb2

theorem drainPackets_spec (buf : List Pkt) (n : Nat)
    (hsort : buf.Pairwise (fun a b => a.messagePartNumber < b.messagePartNumber))
    (hge : ∀ q ∈ buf, n ≤ q.messagePartNumber) :
    n ≤ (drainPackets buf n).2.2 ∧
    partsOf (drainPackets buf n).1 = List.range' n ((drainPackets buf n).2.2 - n) ∧
    buf = (drainPackets buf n).1 ++ (drainPackets buf n).2.1 ∧
    (∀ q ∈ (drainPackets buf n).2.1, (drainPackets buf n).2.2 < q.messagePartNumber) ∧
    ((drainPackets buf n).2.1).Pairwise
      (fun a b => a.messagePartNumber < b.messagePartNumber) := by
  induction buf generalizing n with
  | nil =>
      refine ⟨le_refl n, ?_, rfl, ?_, List.Pairwise.nil⟩
      · simp [drainPackets, partsOf]
      · intro q hq
        simp [drainPackets] at hq
  | cons q rest ih =>
      obtain ⟨hq, hrest⟩ := List.pairwise_cons.mp hsort
      by_cases hqn : q.messagePartNumber = n
      · have hge2 : ∀ b ∈ rest, n + 1 ≤ b.messagePartNumber := by
          intro b hb
          have := hq b hb
          omega
        obtain ⟨ih1, ih2, ih3, ih4, ih5⟩ := ih (n + 1) hrest hge2
        have hr1 : (drainPackets (q :: rest) n).1 = q :: (drainPackets rest (n + 1)).1 := by
          rw [drainPackets, if_pos hqn]
        have hr2 : (drainPackets (q :: rest) n).2.1 = (drainPackets rest (n + 1)).2.1 := by
          rw [drainPackets, if_pos hqn]
        have hr3 : (drainPackets (q :: rest) n).2.2 = (drainPackets rest (n + 1)).2.2 := by
          rw [drainPackets, if_pos hqn]
        rw [hr1, hr2, hr3]
        refine ⟨by omega, ?_, ?_, ih4, ih5⟩
        · show q.messagePartNumber :: partsOf (drainPackets rest (n + 1)).1 = _
          rw [hqn, ih2, show (drainPackets rest (n + 1)).2.2 - n
            = ((drainPackets rest (n + 1)).2.2 - (n + 1)) + 1 by omega]
          rfl
        · show q :: rest = (q :: (drainPackets rest (n + 1)).1) ++ (drainPackets rest (n + 1)).2.1
          rw [List.cons_append, ← ih3]
      · have hr1 : (drainPackets (q :: rest) n).1 = [] := by
          rw [drainPackets, if_neg hqn]
        have hr2 : (drainPackets (q :: rest) n).2.1 = q :: rest := by
          rw [drainPackets, if_neg hqn]
        have hr3 : (drainPackets (q :: rest) n).2.2 = n := by
          rw [drainPackets, if_neg hqn]
        rw [hr1, hr2, hr3]
        refine ⟨le_refl n, by simp [partsOf], rfl, ?_, hsort⟩
        intro b hb
        have hqge : n ≤ q.messagePartNumber := hge q (List.mem_cons_self q rest)
        rcases List.mem_cons.mp hb with heq | hb2
        · rw [heq]
          omega
        · have h1 := hq b hb2
          omega

/-- The collector invariant relative to the multiset `seen` of part numbers
that have arrived: the buffer is strictly sorted by part number, everything
buffered is strictly beyond the next expected part, the buffered parts are
exactly the arrived parts at or beyond the next expected part, and every part
below the next expected part has arrived. -/
def CollectorInv (seen : List Nat) (c : PendingReceivedMessage) : Prop :=
  c.packets.Pairwise (fun a b => a.messagePartNumber < b.messagePartNumber) ∧
  (∀ q ∈ c.packets, c.nextPartNumber < q.messagePartNumber) ∧
  (∀ x, x ∈ partsOf c.packets ↔ (x ∈ seen ∧ c.nextPartNumber ≤ x)) ∧
  (∀ x, x < c.nextPartNumber → x ∈ seen)

theorem deliverStep_spec (c : PendingReceivedMessage) (p : Pkt) (seen : List Nat)
    (hinv : CollectorInv seen c) (hnew : p.messagePartNumber ∉ seen) :
    CollectorInv (seen ++ [p.messagePartNumber]) (deliverStep c p).2 ∧
    c.nextPartNumber ≤ (deliverStep c p).2.nextPartNumber ∧
    partsOf (deliverStep c p).1
      = List.range' c.nextPartNumber
          ((deliverStep c p).2.nextPartNumber - c.nextPartNumber) ∧
    (∀ x ∈ (deliverStep c p).1, x = p ∨ x ∈ c.packets) ∧
    (∀ x ∈ (deliverStep c p).2.packets, x = p ∨ x ∈ c.packets) := by
  obtain ⟨hst, hgt, hmemiff, hlow⟩ := hinv
  have hfreshbuf : ∀ x ∈ c.packets, x.messagePartNumber ≠ p.messagePartNumber := by
    intro x hx heq
    have hxp : x.messagePartNumber ∈ partsOf c.packets := List.mem_map.mpr ⟨x, hx, rfl⟩
    exact hnew (heq ▸ ((hmemiff _).mp hxp).1)
  have hpge : c.nextPartNumber ≤ p.messagePartNumber := by
    by_contra hlt
    exact hnew (hlow _ (by omega))
  have hsort2 := pairwise_insertByPartNumber p c.packets hst hfreshbuf
  have hge2 : ∀ q ∈ insertByPartNumber p c.packets,
      c.nextPartNumber ≤ q.messagePartNumber := by
    intro q hq
    rcases (mem_insertByPartNumber p q c.packets).mp hq with rfl | hq2
    · exact hpge
    · exact le_of_lt (hgt q hq2)
  obtain ⟨hd1, hd2, hd3, hd4, hd5⟩ :=
    drainPackets_spec (insertByPartNumber p c.packets) c.nextPartNumber hsort2 hge2
  have hbufmem : ∀ x, x ∈ partsOf (insertByPartNumber p c.packets) ↔
      (x ∈ seen ++ [p.messagePartNumber] ∧ c.nextPartNumber ≤ x) := by
    intro x
    constructor
    · intro hx
      obtain ⟨y, hy, rfl⟩ := List.mem_map.mp hx
      rcases (mem_insertByPartNumber p y c.packets).mp hy with rfl | hy2
      · exact ⟨List.mem_append.mpr (Or.inr (List.mem_singleton.mpr rfl)), hpge⟩
      · have := (hmemiff _).mp (List.mem_map.mpr ⟨y, hy2, rfl⟩)
        exact ⟨List.mem_append.mpr (Or.inl this.1), this.2⟩
    · rintro ⟨hx, hge⟩
      rcases List.mem_append.mp hx with hx2 | hx2
      · have := (hmemiff x).mpr ⟨hx2, hge⟩
        obtain ⟨y, hy, rfl⟩ := List.mem_map.mp this
        exact List.mem_map.mpr ⟨y, (mem_insertByPartNumber p y c.packets).mpr (Or.inr hy), rfl⟩
      · rw [List.mem_singleton.mp hx2]
        exact List.mem_map.mpr ⟨p, (mem_insertByPartNumber p p c.packets).mpr (Or.inl rfl), rfl⟩
  have hsub : ∀ x ∈ insertByPartNumber p c.packets, x = p ∨ x ∈ c.packets := by
    intro x hx
    exact (mem_insertByPartNumber p x c.packets).mp hx
  have hpr : ∀ (A : List Pkt) (B : Nat), (PendingReceivedMessage.mk A B).nextPartNumber = B :=
    fun _ _ => rfl
  have hpk : ∀ (A : List Pkt) (B : Nat), (PendingReceivedMessage.mk A B).packets = A :=
    fun _ _ => rfl
  simp only [deliverStep, CollectorInv, hpr, hpk]
  refine ⟨⟨hd5, hd4, ?_, ?_⟩, hd1, hd2, ?_, ?_⟩
  · intro x
    constructor
    · intro hx
      obtain ⟨y, hy, rfl⟩ := List.mem_map.mp hx
      have hybuf : y ∈ insertByPartNumber p c.packets := by
        rw [hd3]
        exact List.mem_append.mpr (Or.inr hy)
      have := (hbufmem _).mp (List.mem_map.mpr ⟨y, hybuf, rfl⟩)
      exact ⟨this.1, le_of_lt (hd4 y hy)⟩
    · rintro ⟨hx, hge⟩
      have hn2 := hd1
      have hxbuf : x ∈ partsOf (insertByPartNumber p c.packets) :=
        (hbufmem x).mpr ⟨hx, by omega⟩
      obtain ⟨y, hy, rfl⟩ := List.mem_map.mp hxbuf
      rw [hd3] at hy
      rcases List.mem_append.mp hy with hy2 | hy2
      · have : y.messagePartNumber ∈ partsOf
            (drainPackets (insertByPartNumber p c.packets) c.nextPartNumber).1 :=
          List.mem_map.mpr ⟨y, hy2, rfl⟩
        rw [hd2] at this
        have := List.mem_range'_1.mp this
        omega
      · exact List.mem_map.mpr ⟨y, hy2, rfl⟩
  · intro x hx
    by_cases hxn : x < c.nextPartNumber
    · exact List.mem_append.mpr (Or.inl (hlow x hxn))
    · have hxbuf : x ∈ partsOf
          (drainPackets (insertByPartNumber p c.packets) c.nextPartNumber).1 := by
        rw [hd2]
        exact List.mem_range'_1.mpr (by omega)
      obtain ⟨y, hy, rfl⟩ := List.mem_map.mp hxbuf
      have hybuf : y ∈ insertByPartNumber p c.packets := by
        rw [hd3]
        exact List.mem_append.mpr (Or.inl hy)
      exact ((hbufmem _).mp (List.mem_map.mpr ⟨y, hybuf, rfl⟩)).1
  · intro x hx
    apply hsub
    rw [hd3]
    exact List.mem_append.mpr (Or.inl hx)
  · intro x hx
    apply hsub
    rw [hd3]
    exact List.mem_append.mpr (Or.inr hx)

theorem runCollector_spec : ∀ (ps : List Pkt) (c : PendingReceivedMessage) (seen : List Nat),
    (∀ x ∈ ps, x.messagePartNumber ∉ seen) →
    (partsOf ps).Nodup →
    CollectorInv seen c →
    CollectorInv (seen ++ partsOf ps) (runCollector c ps).2 ∧
    c.nextPartNumber ≤ (runCollector c ps).2.nextPartNumber ∧
    partsOf (runCollector c ps).1
      = List.range' c.nextPartNumber
          ((runCollector c ps).2.nextPartNumber - c.nextPartNumber) ∧
    (∀ x ∈ (runCollector c ps).1, x ∈ ps ∨ x ∈ c.packets) := by
  intro ps
  induction ps with
  | nil =>
      intro c seen _ _ hinv
      refine ⟨by simpa [partsOf, runCollector] using hinv, le_refl _,
        by simp [runCollector, partsOf], ?_⟩
      intro x hx
      simp [runCollector] at hx
  | cons p rest ih =>
      intro c seen hfresh hnd hinv
      have hnewp : p.messagePartNumber ∉ seen := hfresh p (List.mem_cons_self p rest)
      obtain ⟨hs1, hs2, hs3, hs4, hs5⟩ := deliverStep_spec c p seen hinv hnewp
      have hndrest : (partsOf rest).Nodup ∧ p.messagePartNumber ∉ partsOf rest := by
        have : partsOf (p :: rest) = p.messagePartNumber :: partsOf rest := rfl
        rw [this] at hnd
        exact ⟨(List.nodup_cons.mp hnd).2, (List.nodup_cons.mp hnd).1⟩
      have hfresh2 : ∀ x ∈ rest, x.messagePartNumber ∉ seen ++ [p.messagePartNumber] := by
        intro x hx hmem
        rcases List.mem_append.mp hmem with h | h
        · exact hfresh x (List.mem_cons_of_mem p hx) h
        · exact hndrest.2 (List.mem_singleton.mp h ▸ List.mem_map.mpr ⟨x, hx, rfl⟩)
      obtain ⟨ihA, ihB, ihC, ihD⟩ :=
        ih (deliverStep c p).2 (seen ++ [p.messagePartNumber]) hfresh2 hndrest.1 hs1
      have hrc1 : (runCollector c (p :: rest)).1
          = (deliverStep c p).1 ++ (runCollector (deliverStep c p).2 rest).1 := rfl
      have hrc2 : (runCollector c (p :: rest)).2
          = (runCollector (deliverStep c p).2 rest).2 := rfl
      rw [hrc1, hrc2]
      refine ⟨?_, le_trans hs2 ihB, ?_, ?_⟩
      · have heq : (seen ++ [p.messagePartNumber]) ++ partsOf rest
            = seen ++ partsOf (p :: rest) := by
          rw [List.append_assoc]
          rfl
        rw [← heq]
        exact ihA
      · have hm : partsOf ((deliverStep c p).1 ++ (runCollector (deliverStep c p).2 rest).1)
            = partsOf (deliverStep c p).1
              ++ partsOf (runCollector (deliverStep c p).2 rest).1 := by
          unfold partsOf
          exact List.map_append _ _ _
        rw [hm, hs3, ihC]
        have h1 : (deliverStep c p).2.nextPartNumber
            = c.nextPartNumber + ((deliverStep c p).2.nextPartNumber - c.nextPartNumber) := by
          omega
        rw [show List.range' (deliverStep c p).2.nextPartNumber
              ((runCollector (deliverStep c p).2 rest).2.nextPartNumber
                - (deliverStep c p).2.nextPartNumber)
            = List.range' (c.nextPartNumber
                + ((deliverStep c p).2.nextPartNumber - c.nextPartNumber))
              ((runCollector (deliverStep c p).2 rest).2.nextPartNumber
                - (deliverStep c p).2.nextPartNumber) by rw [← h1]]
        rw [List.range'_append_1]
        congr 1
        omega
      · intro x hx
        rcases List.mem_append.mp hx with h | h
        · rcases hs4 x h with rfl | h2
          · exact Or.inl (List.mem_cons_self _ _)
          · exact Or.inr h2
        · rcases ihD x h with h2 | h2
          · exact Or.inl (List.mem_cons_of_mem p h2)
          · rcases hs5 x h2 with rfl | h3
            · exact Or.inl (List.mem_cons_self _ _)
            · exact Or.inr h3

theorem insertByPartNumber_ne_nil (p : Pkt) (l : List Pkt) : insertByPartNumber p l ≠ [] := by
  cases l with
  | nil => simp [insertByPartNumber]
  | cons q rest =>
      unfold insertByPartNumber
      split <;> simp

/-- C5: feeding any duplicate-free arrival order to a fresh collector,
(1) the delivered part numbers are exactly `0, 1, ..., next_expected_part - 1`
in increasing order; (2) if the arrivals cover exactly the parts `0..k-1`,
the delivered parts are exactly `0..k-1`; (3) under the sender convention
that LAST marks part `k-1`, a LAST packet with part `k-1` is delivered;
(4) a packet arriving with part number greater than `next_expected_part` is
buffered in the collector and nothing is delivered by that arrival. -/
theorem message_reassembly_delivery (ps : List Pkt) (hnd : (partsOf ps).Nodup) :
    partsOf (runCollector {} ps).1
      = List.range (runCollector {} ps).2.nextPartNumber ∧
    (∀ k, (∀ i, i < k → i ∈ partsOf ps) → (∀ p ∈ ps, p.messagePartNumber < k) →
      partsOf (runCollector {} ps).1 = List.range k) ∧
    (∀ k, 0 < k → (∀ i, i < k → i ∈ partsOf ps) → (∀ p ∈ ps, p.messagePartNumber < k) →
      (∀ p ∈ ps, (p.packetPosition = PacketPosition.LAST ↔ p.messagePartNumber + 1 = k)) →
      ∃ x ∈ (runCollector {} ps).1,
        x.packetPosition = PacketPosition.LAST ∧ x.messagePartNumber + 1 = k) ∧
    (∀ (c : PendingReceivedMessage) (p : Pkt),
      (∀ q ∈ c.packets, c.nextPartNumber < q.messagePartNumber) →
      c.nextPartNumber < p.messagePartNumber →
      ((deliverStep c p).1 = [] ∧ p ∈ (deliverStep c p).2.packets)) := by
  have hinv0 : CollectorInv [] ({} : PendingReceivedMessage) := by
    refine ⟨List.Pairwise.nil, ?_, ?_, ?_⟩
    · intro q hq
      exact absurd hq (List.not_mem_nil q)
    · intro x
      constructor
      · intro hx
        exact absurd hx (List.not_mem_nil x)
      · rintro ⟨hx, _⟩
        exact absurd hx (List.not_mem_nil x)
    · intro x hx
      exact absurd hx (Nat.not_lt_zero x)
  have hfresh0 : ∀ x ∈ ps, x.messagePartNumber ∉ ([] : List Nat) := by
    intro x _ h
    simp at h
  obtain ⟨hA, hB, hC, hD⟩ := runCollector_spec ps {} [] hfresh0 hnd hinv0
  have h0 : ({} : PendingReceivedMessage).nextPartNumber = 0 := rfl
  have h0p : ({} : PendingReceivedMessage).packets = [] := rfl
  rw [h0] at hB hC
  rw [List.nil_append] at hA
  obtain ⟨hA1, hA2, hA3, hA4⟩ := hA
  have hfirst : partsOf (runCollector {} ps).1
      = List.range (runCollector {} ps).2.nextPartNumber := by
    rw [hC, List.range_eq_range']
    congr 1
  have hkey : ∀ k, (∀ i, i < k → i ∈ partsOf ps) → (∀ p ∈ ps, p.messagePartNumber < k) →
      (runCollector {} ps).2.nextPartNumber = k := by
    intro k hk1 hk2
    rcases Nat.lt_trichotomy ((runCollector {} ps).2.nextPartNumber) k with hlt | heq | hgt
    · exfalso
      have hjmem := (hA3 _).mpr ⟨hk1 _ hlt, le_refl _⟩
      obtain ⟨y, hy, hyp⟩ := List.mem_map.mp hjmem
      have := hA2 y hy
      omega
    · exact heq
    · exfalso
      have hkmem := hA4 k hgt
      obtain ⟨y, hy, hyp⟩ := List.mem_map.mp hkmem
      have := hk2 y hy
      omega
  have hsecond : ∀ k, (∀ i, i < k → i ∈ partsOf ps) → (∀ p ∈ ps, p.messagePartNumber < k) →
      partsOf (runCollector {} ps).1 = List.range k := by
    intro k hk1 hk2
    rw [hfirst, hkey k hk1 hk2]
  refine ⟨hfirst, hsecond, ?_, ?_⟩
  · intro k hk0 hk1 hk2 hk3
    have hbeq := hsecond k hk1 hk2
    have hkm1 : k - 1 ∈ partsOf (runCollector {} ps).1 := by
      rw [hbeq]
      exact List.mem_range.mpr (by omega)
    obtain ⟨x, hx, hxp⟩ := List.mem_map.mp hkm1
    have hxin : x ∈ ps := by
      rcases hD x hx with h | h
      · exact h
      · rw [h0p] at h
        simp at h
    refine ⟨x, hx, (hk3 x hxin).mpr (by omega), by omega⟩
  · intro c p hgt hplt
    cases hbuf : insertByPartNumber p c.packets with
    | nil => exact absurd hbuf (insertByPartNumber_ne_nil p c.packets)
    | cons h t =>
        have hh : h ∈ insertByPartNumber p c.packets := by
          rw [hbuf]
          exact List.mem_cons_self h t
        have hhgt : c.nextPartNumber < h.messagePartNumber := by
          rcases (mem_insertByPartNumber p h c.packets).mp hh with rfl | hin
          · exact hplt
          · exact hgt h hin
        have hdr1 : (drainPackets (h :: t) c.nextPartNumber).1 = [] := by
          rw [drainPackets, if_neg (by omega)]
        have hdr2 : (drainPackets (h :: t) c.nextPartNumber).2.1 = h :: t := by
          rw [drainPackets, if_neg (by omega)]
        constructor
        · show (drainPackets (insertByPartNumber p c.packets) c.nextPartNumber).1 = []
          rw [hbuf, hdr1]
        · show p ∈ (drainPackets (insertByPartNumber p c.packets) c.nextPartNumber).2.1
          rw [hbuf, hdr2, ← hbuf]
          exact (mem_insertByPartNumber p p c.packets).mpr (Or.inl rfl)

/-- Witness for `message_reassembly_delivery`: parts 2, 0, 1 arriving out of
order (LAST on part 2) are delivered as exactly the parts 0, 1, 2. -/
theorem message_reassembly_delivery_witness :
    partsOf (runCollector {}
      [{ messagePartNumber := 2, packetPosition := PacketPosition.LAST },
       { messagePartNumber := 0, packetPosition := PacketPosition.FIRST },
       { messagePartNumber := 1, packetPosition := PacketPosition.MIDDLE }]).1
      = List.range 3 :=
  (message_reassembly_delivery
    [{ messagePartNumber := 2, packetPosition := PacketPosition.LAST },
     { messagePartNumber := 0, packetPosition := PacketPosition.FIRST },
     { messagePartNumber := 1, packetPosition := PacketPosition.MIDDLE }]
    (by decide)).2.1 3 (by decide) (by decide)

/-! ## Connection handshake reset

Embedded from `Connection.h`.  `Connection::processControl` routes control
packets; its body is not in the snapshot, so the `HandshakeRequest` handling
is modelled from the spec (§4.5): while Established, a `HandshakeRequest`
resets the connection — receive state cleared, send queue stopped and
recreated, initial sequence number regenerated — and a Handshake carrying the
new initial sequence number goes to the peer. -/

/-- A control packet the connection emits in response
(`ControlPacket.h` types, with the carried initial sequence number / ACK). -/
inductive ControlOut where
  | handshake (isn : Nat)
  | handshakeACK (isn : Nat)
  | ackPacket (n : Nat)
deriving DecidableEq, Repr

/-- The per-peer connection state (`Connection.h` members; socket handle,
congestion control and statistics omitted).  The server side is Established
once the client's HandshakeACK has been received
(`_hasReceivedHandshakeACK`). -/
structure ConnectionState where
  hasReceivedHandshake : Bool := false
  hasReceivedHandshakeACK : Bool := false
  didRequestHandshake : Bool := false
  initialSequenceNumber : Nat := 0
  initialReceiveSequenceNumber : Nat := 0
  lossList : List Nat := []
  lastReceivedSequenceNumber : Nat := 0
  pendingReceivedMessages : List (Nat × PendingReceivedMessage) := []
  sendQueue : Option SendQueueState := none
deriving DecidableEq, Repr

/-- Modelled from the spec: `Connection::resetReceiveState` clears the
receive loss list, the pending received messages and the last received
sequence number (§4.5 reset semantics). -/
def ConnectionState.resetReceiveState (c : ConnectionState) : ConnectionState :=
  { c with
    lossList := []
    pendingReceivedMessages := []
    lastReceivedSequenceNumber := 0 }

/-- Modelled from the spec: the `HandshakeRequest` arm of
`Connection::processControl` (§4.5).  `newISN` is the freshly randomized
initial sequence number (randomness is injected).  While Established, the
connection is reset: receive state cleared, the send queue stopped and
recreated at the new initial sequence number with the handshake-ACK flag
down, and a Handshake carrying the new initial sequence number is sent. -/
def ConnectionState.processHandshakeRequest (c : ConnectionState) (newISN : Nat) :
    ConnectionState × Option ControlOut :=
  if c.hasReceivedHandshakeACK then
    ({ c.resetReceiveState with
        hasReceivedHandshakeACK := false
        initialSequenceNumber := newISN % seqMod
        sendQueue := some (createSendQueue (newISN % seqMod) 0 false) },
      some (ControlOut.handshake (newISN % seqMod)))
  else
    (c, some (ControlOut.handshake c.initialSequenceNumber))

/-- C9: receiving a `HandshakeRequest` while Established resets the
connection: the receive state (loss list, pending received messages, last
received sequence number) is cleared, the send queue is replaced by a fresh
one at the regenerated initial sequence number (with the handshake-ACK flag
cleared, so only Handshakes go out until the peer ACKs), and a Handshake
carrying the new initial sequence number is sent to the peer. -/
theorem handshakeRequest_reset (c : ConnectionState) (newISN : Nat)
    (hest : c.hasReceivedHandshakeACK = true) :
    (c.processHandshakeRequest newISN).1.lossList = [] ∧
    (c.processHandshakeRequest newISN).1.pendingReceivedMessages = [] ∧
    (c.processHandshakeRequest newISN).1.lastReceivedSequenceNumber = 0 ∧
    (c.processHandshakeRequest newISN).1.initialSequenceNumber = newISN % seqMod ∧
    (c.processHandshakeRequest newISN).1.sendQueue
      = some (createSendQueue (newISN % seqMod) 0 false) ∧
    (c.processHandshakeRequest newISN).1.hasReceivedHandshakeACK = false ∧
    (c.processHandshakeRequest newISN).2
      = some (ControlOut.handshake (newISN % seqMod)) := by
  unfold ConnectionState.processHandshakeRequest ConnectionState.resetReceiveState
  rw [if_pos hest]
  exact ⟨rfl, rfl, rfl, rfl, rfl, rfl, rfl⟩

/-- Witness for `handshakeRequest_reset`: an established connection with
in-flight receive state, reset by a HandshakeRequest with fresh initial
sequence number 42. -/
theorem handshakeRequest_reset_witness :
    (ConnectionState.processHandshakeRequest
        { hasReceivedHandshakeACK := true, lossList := [7], lastReceivedSequenceNumber := 9 }
        42).1.lossList = [] ∧
    (ConnectionState.processHandshakeRequest
        { hasReceivedHandshakeACK := true, lossList := [7], lastReceivedSequenceNumber := 9 }
        42).2 = some (ControlOut.handshake (42 % seqMod)) := by
  have h := handshakeRequest_reset
    { hasReceivedHandshakeACK := true, lossList := [7], lastReceivedSequenceNumber := 9 }
    42 rfl
  exact ⟨h.1, h.2.2.2.2.2.2⟩

end VircadiaUDT
